import Mathlib

/-!
Verification of the retrieval engine of the rag-qa-bot repository.

The development shallowly embeds the Python sources:
* `src/backend/pdf_processor.py` — text normalization, sentence splitting and
  greedy chunking (`SimplePDFProcessor.load_pdf` / `process_pdf`);
* `src/backend/simple_rag.py` — cosine similarity, ranking (`search`),
  document ingestion (`process_document`) and question answering
  (`answer_question`), the module imported by the frontend;
* `src/backend/rag_simple.py` — the variant backend, whose `answer_question`
  differs in its empty-store and generation-failure behaviour;
* `src/backend/config.py` — the configuration constants.

Machine floats are modelled by exact reals; the two remote provider calls
(embedding, generation) are modelled by explicit outcome parameters
(`Option` for the embedding call, `Except` carrying the exception message for
the generation call), since the providers are external to the repository.
-/

namespace RagQA

/-! ## Configuration (`src/backend/config.py`) -/

namespace Config

def CHUNK_SIZE : ℕ := 1000

def CHUNK_OVERLAP : ℕ := 200

def TOP_K : ℕ := 3

def EMBEDDING_MODEL : String := "embed-english-v3.0"

def GENERATION_MODEL : String := "command-r7b-12-2024"

end Config

/-! ## Chunker (`src/backend/pdf_processor.py`, `SimplePDFProcessor.load_pdf`)

`load_pdf` extracts the raw text (external, modelled as the input string),
then runs:
* `full_text = re.sub(r'\s+', ' ', full_text).strip()` — `normalizeL`;
* `sentences = re.split(r'(?<=[.!?])\s+', full_text)` — `splitSentAux`;
* the greedy sentence-accumulation loop — `chunkLoop`.
-/

/-- The characters matched by the regex class `\s` (ASCII range). -/
def isPySpace (c : Char) : Bool :=
  c == ' ' || c == '\t' || c == '\n' || c == '\r' || c == '\x0b' || c == '\x0c'

/-- The sentence-terminal punctuation class `[.!?]` of the splitting regex. -/
def isPunct (c : Char) : Bool :=
  c == '.' || c == '!' || c == '?'

/-- Model of `re.sub(r'\s+', ' ', s)`: every maximal whitespace run becomes
one space.  The flag records whether the previous character was whitespace
(i.e. the current run has already emitted its single space). -/
def collapseAux : Bool → List Char → List Char
  | _, [] => []
  | prevSpace, c :: cs =>
    if isPySpace c then
      if prevSpace then collapseAux true cs else ' ' :: collapseAux true cs
    else c :: collapseAux false cs

def collapseWS (l : List Char) : List Char := collapseAux false l

/-- Model of Python `str.strip()`: drop whitespace from both ends. -/
def pyStripL (l : List Char) : List Char :=
  ((((l.dropWhile fun c => isPySpace c).reverse).dropWhile fun c => isPySpace c)).reverse

/-- The full text normalization `re.sub(r'\s+', ' ', full_text).strip()`. -/
def normalizeL (l : List Char) : List Char :=
  pyStripL (collapseWS l)

/-- Does the accumulated (reversed) sentence end with `[.!?]`?  This is the
lookbehind `(?<=[.!?])` of the splitting regex: the character immediately
before the whitespace run. -/
def headIsPunct : List Char → Bool
  | [] => false
  | p :: _ => isPunct p

/-- Model of `re.split(r'(?<=[.!?])\s+', s)`.  `acc` holds the current token
reversed; a maximal whitespace run preceded by `[.!?]` separates tokens and
is discarded (`inSep` records that the scan is inside such a run, in which
case `acc = []`).  On input `[]` (the empty string) it returns `[[]]`,
exactly as `re.split` returns `['']`. -/
def splitSentAux : List Char → List Char → Bool → List (List Char)
  | [], acc, _ => [acc.reverse]
  | c :: cs, acc, inSep =>
    if inSep && isPySpace c then
      splitSentAux cs acc inSep
    else if isPySpace c && headIsPunct acc then
      acc.reverse :: splitSentAux cs [] true
    else
      splitSentAux cs (c :: acc) false

/-- The greedy accumulation loop of `load_pdf`:

```
for sentence in sentences:
    if len(current_chunk) + len(sentence) < self.chunk_size:
        current_chunk += sentence + " "
    else:
        if current_chunk:
            chunks.append(current_chunk.strip())
        current_chunk = sentence + " "
if current_chunk:
    chunks.append(current_chunk.strip())
```
-/
def chunkLoop (chunkSize : ℕ) :
    List (List Char) → List (List Char) → List Char → List (List Char)
  | [], chunks, current =>
    if current = [] then chunks else chunks ++ [pyStripL current]
  | s :: rest, chunks, current =>
    if current.length + s.length < chunkSize then
      chunkLoop chunkSize rest chunks (current ++ s ++ [' '])
    else if current = [] then
      chunkLoop chunkSize rest chunks (s ++ [' '])
    else
      chunkLoop chunkSize rest (chunks ++ [pyStripL current]) (s ++ [' '])

/-- The chunk list produced by `load_pdf` from extracted text (char-list
level). -/
def chunk_textL (l : List Char) (chunkSize : ℕ) : List (List Char) :=
  chunkLoop chunkSize (splitSentAux (normalizeL l) [] false) [] []

/-- String-level wrappers. -/
def normalize (s : String) : String := ⟨normalizeL s.data⟩

def pyStrip (s : String) : String := ⟨pyStripL s.data⟩

def splitSentences (s : String) : List String :=
  (splitSentAux (normalizeL s.data) [] false).map String.mk

/-- `SimplePDFProcessor.load_pdf`: the chunk texts produced from the
extracted document text. -/
def load_pdf_chunks (text : String) (chunkSize : ℕ) : List String :=
  (chunk_textL text.data chunkSize).map String.mk

/-- `SimplePDFProcessor.process_pdf`: returns the chunks and
`success = len(chunks) > 0`. -/
def process_pdf (text : String) : List String × Bool :=
  let chunks := load_pdf_chunks text Config.CHUNK_SIZE
  (chunks, chunks.length != 0)

/-- Joining a list of strings with single spaces (used to state the
lossless-concatenation property of chunking). -/
def joinSpL : List (List Char) → List Char
  | [] => []
  | [t] => t
  | t :: t' :: ts => t ++ ' ' :: joinSpL (t' :: ts)

def joinSp (ss : List String) : String :=
  ⟨joinSpL (ss.map String.data)⟩

/-- Each sentence followed by one space: the shape of `current_chunk` after
accumulating the sentences of `g` (`current_chunk += sentence + " "`). -/
def joinTrailL : List (List Char) → List Char
  | [] => []
  | t :: ts => t ++ ' ' :: joinTrailL ts

/-! ## Cosine similarity
(`SimpleRAGSystem._cosine_similarity`, identical in `simple_rag.py` lines
81-94 and `rag_simple.py` lines 52-61; the extra `try/except` of the former
is unreachable in the exact-arithmetic model, where all operations are
total). -/

/-- `np.dot(vec1, vec2)` on equal-length vectors: the sum of the pairwise
products. -/
def dotList (a b : List ℝ) : ℝ :=
  (List.zipWith (fun x y => x * y) a b).sum

/-- `np.linalg.norm(v)`: the Euclidean norm. -/
noncomputable def norm2 (v : List ℝ) : ℝ :=
  Real.sqrt (dotList v v)

/-- `_cosine_similarity(vec1, vec2)`: `0` if either norm is zero, otherwise
`dot / (norm1 * norm2)`. -/
noncomputable def cosine_similarity (a b : List ℝ) : ℝ :=
  if norm2 a = 0 ∨ norm2 b = 0 then 0
  else dotList a b / (norm2 a * norm2 b)

/-! ## Ranking (`SimpleRAGSystem.search`, `simple_rag.py` lines 96-137)

`similarities.sort(key=lambda x: x[1], reverse=True)` is Python's stable
sort, descending on the score component only.  A stable sort with respect to
a total preorder is unique, so the stable descending insertion sort below
computes exactly the same list: an element is inserted after every
already-placed element whose score is `≥` its own. -/

noncomputable def insertDesc (x : ℕ × ℝ) : List (ℕ × ℝ) → List (ℕ × ℝ)
  | [] => [x]
  | y :: ys => if y.2 ≤ x.2 then x :: y :: ys else y :: insertDesc x ys

noncomputable def sortDesc : List (ℕ × ℝ) → List (ℕ × ℝ)
  | [] => []
  | x :: xs => insertDesc x (sortDesc xs)

/-- The per-chunk metadata dictionary `{"source": ..., "chunk_id": i}`. -/
structure Metadata where
  source : String
  chunk_id : ℕ
deriving DecidableEq

/-- One entry of the list returned by `search`:
`{"id": i + 1, "text": ..., "score": ..., "metadata": ...}`. -/
structure SearchResult where
  id : ℕ
  text : String
  score : ℝ
  metadata : Metadata

/-- The mutable fields of `SimpleRAGSystem`: `self.documents`,
`self.embeddings`, `self.metadata`. -/
structure RAGState where
  documents : List String
  embeddings : List (List ℝ)
  metadata : List Metadata

/-- The state set up by `SimpleRAGSystem.__init__`: three empty lists. -/
def initState : RAGState := ⟨[], [], []⟩

/-- The store invariant: the three sequences are index-aligned and
`metadata[i]["chunk_id"] == i`, as established by every successful
`process_document` (assuming the embedding provider honours its one-vector-
per-text contract). -/
def WFState (st : RAGState) : Prop :=
  st.documents.length = st.embeddings.length ∧
  st.metadata.length = st.embeddings.length ∧
  ∀ i (h : i < st.metadata.length), (st.metadata.get ⟨i, h⟩).chunk_id = i

/-- `SimpleRAGSystem.search(query, top_k)`.  The remote call that embeds the
query is modelled by `queryEmbed`; `none` models the call raising, in which
case the surrounding `try/except` returns `[]`.  With the embedding in hand
the method scores every stored embedding, sorts stably by descending score,
slices the first `top_k`, and numbers the results from 1.  (Out-of-range
indexing of `documents`/`metadata` cannot occur when the lists are aligned;
`getD` supplies an irrelevant default.) -/
noncomputable def search (st : RAGState) (queryEmbed : Option (List ℝ))
    (top_k : ℕ) : List SearchResult :=
  if st.embeddings.isEmpty then []
  else
    match queryEmbed with
    | none => []
    | some query_embedding =>
      let similarities :=
        st.embeddings.enum.map fun p => (p.1, cosine_similarity query_embedding p.2)
      let top := (sortDesc similarities).take top_k
      top.enum.map fun r =>
        { id := r.1 + 1, text := st.documents.getD r.2.1 "",
          score := r.2.2, metadata := st.metadata.getD r.2.1 ⟨"", 0⟩ }

/-! ## Ingestion (`SimpleRAGSystem.process_document`, `simple_rag.py`
lines 34-72) -/

/-- `process_document(pdf_path)`.  External effects are parameters:
`fileExists` models `os.path.exists`, `pdfText` the PDF text extraction
(`none` = extraction raised, making `load_pdf` return `[]`), `embedResult`
the `co.embed` call (`none` = the call raised).  Returns the new state and
the reported success flag.  No validation relates the length of
`embedResult` to the chunk list: whatever the provider returns is stored. -/
def process_document (st : RAGState) (sourceName : String) (fileExists : Bool)
    (pdfText : Option String) (embedResult : Option (List (List ℝ))) :
    RAGState × Bool :=
  if !fileExists then (st, false)
  else
    let pr := match pdfText with
      | none => ([], false)
      | some t => process_pdf t
    if !pr.2 then (st, false)
    else
      match embedResult with
      | none => (st, false)
      | some embs =>
        ({ documents := pr.1, embeddings := embs,
           metadata := (List.range pr.1.length).map fun i => ⟨sourceName, i⟩ },
         true)

/-! ## Question answering -/

/-- The result dictionary of `answer_question`; `model_used` is present only
on the success path of `simple_rag.py`. -/
structure QAResult where
  question : String
  answer : String
  sources : List SearchResult
  status : String
  model_used : Option String := none

/-- The fixed answer of the `no_documents` branch (`simple_rag.py` 147). -/
def noDocsAnswer : String :=
  "⚠️ No documents have been processed yet. Please upload and process a PDF first."

/-- The fixed answer of the `no_results` branch (`simple_rag.py` 159). -/
def noResultsAnswer : String :=
  "❌ I couldn\x27t find any relevant information in the document for your question."

/-- Round-half-even on `x` (the rounding used by Python float formatting;
exact-real model). -/
noncomputable def roundHalfEven (x : ℝ) : ℤ :=
  if x - ⌊x⌋ < 1 / 2 then ⌊x⌋
  else if 1 / 2 < x - ⌊x⌋ then ⌊x⌋ + 1
  else if Even ⌊x⌋ then ⌊x⌋ else ⌊x⌋ + 1

/-- Render a nonnegative number of tenths of a percent as `d.t%`. -/
def fmtTenths (n : ℤ) : String :=
  toString (n / 10) ++ "." ++ toString (n % 10) ++ "%"

/-- Python's format spec `{:.1%}`: the value as a percentage with one
decimal digit. -/
noncomputable def fmtPercent1 (x : ℝ) : String :=
  let n := roundHalfEven (x * 1000)
  if n < 0 then "-" ++ fmtTenths (-n) else fmtTenths n

/-- The fallback answer synthesized on generation failure
(`simple_rag.py` lines 215-218): the header, then for each of the first
three results (1-based numbering) its relevance percentage and the first
200 characters of its text. -/
noncomputable def fallbackAnswer (relevant_chunks : List SearchResult) : String :=
  "Based on the document, here\x27s what I found:\n\n" ++
    String.join (((relevant_chunks.take 3).enum).map fun p =>
      "**Source " ++ toString (p.1 + 1) ++ "** (Relevance: " ++
        fmtPercent1 p.2.score ++ "):\n" ++ p.2.text.take 200 ++ "...\n\n")

namespace SimpleRag

/-- `SimpleRAGSystem.answer_question` of `simple_rag.py` (lines 139-225),
the module the frontend imports.  `genResult` models the `co.chat` call:
`Except.ok text` is `response.text`, `Except.error msg` models the call
raising with message `msg`.  The assembled context string only flows into
the external generation call, so it does not appear in the result. -/
noncomputable def answer_question (st : RAGState) (queryEmbed : Option (List ℝ))
    (genResult : Except String String) (question : String) : QAResult :=
  if st.documents.isEmpty then
    { question := question, answer := noDocsAnswer, sources := [],
      status := "no_documents" }
  else
    let relevant_chunks := search st queryEmbed Config.TOP_K
    if relevant_chunks.isEmpty then
      { question := question, answer := noResultsAnswer, sources := [],
        status := "no_results" }
    else
      match genResult with
      | Except.ok text =>
        { question := question, answer := pyStrip text,
          sources := relevant_chunks, status := "success",
          model_used := some Config.GENERATION_MODEL }
      | Except.error _ =>
        { question := question, answer := fallbackAnswer relevant_chunks,
          sources := relevant_chunks, status := "fallback" }

end SimpleRag

namespace RagSimple

/-- `SimpleRAGSystem.answer_question` of `rag_simple.py` (lines 103-167):
no `no_documents` branch (an empty store surfaces as `no_results` through
the empty search), and a failing generation call yields `status="error"`
with the exception text in the answer. -/
noncomputable def answer_question (st : RAGState) (queryEmbed : Option (List ℝ))
    (genResult : Except String String) (question : String) : QAResult :=
  let relevant_chunks := search st queryEmbed Config.TOP_K
  if relevant_chunks.isEmpty then
    { question := question,
      answer := "I couldn\x27t find any relevant information in the document. Please make sure a document has been processed first.",
      sources := [], status := "no_results" }
  else
    match genResult with
    | Except.ok text =>
      { question := question, answer := pyStrip text,
        sources := relevant_chunks, status := "success" }
    | Except.error msg =>
      { question := question, answer := "Error generating answer: " ++ msg,
        sources := relevant_chunks, status := "error" }

end RagSimple

/-- `search` with its effect on the instance fields made explicit: the
method only reads `self.documents` / `self.embeddings` / `self.metadata`,
it never assigns them, so the state component is the input state. -/
noncomputable def searchM (st : RAGState) (queryEmbed : Option (List ℝ))
    (top_k : ℕ) : List SearchResult × RAGState :=
  (search st queryEmbed top_k, st)

/-- `answer_question` (of `simple_rag.py`) with its effect on the instance
fields made explicit; like `search` it performs no assignment to them. -/
noncomputable def answer_questionM (st : RAGState) (queryEmbed : Option (List ℝ))
    (genResult : Except String String) (question : String) :
    QAResult × RAGState :=
  (SimpleRag.answer_question st queryEmbed genResult question, st)

/-- A concrete three-chunk corpus with orthonormal embeddings (the example
corpus of spec §8), used as a witness input. -/
def exampleState : RAGState :=
  ⟨["alpha", "beta", "gamma"],
   [[1, 0, 0], [0, 1, 0], [0, 0, 1]],
   [⟨"doc.pdf", 0⟩, ⟨"doc.pdf", 1⟩, ⟨"doc.pdf", 2⟩]⟩

/-! ## Spec-side predicates used in statements and proofs -/

/-- No two adjacent whitespace characters (holds of normalized text). -/
def NoTwoSpaces (l : List Char) : Prop :=
  l.Chain' fun a b => isPySpace a = true → isPySpace b = false

/-- A sentence token is nonempty and starts and ends with a non-whitespace
character (holds of every token split off a nonempty normalized text). -/
def CleanTok (t : List Char) : Prop :=
  t ≠ [] ∧ (∀ c, t.head? = some c → isPySpace c = false) ∧
    (∀ c, t.getLast? = some c → isPySpace c = false)

/-- The ordering `search` promises: `a` strictly precedes `b` when `a`
scores higher, or scores are tied and `a` has the smaller chunk index. -/
def lexOrd (a b : ℕ × ℝ) : Prop :=
  b.2 < a.2 ∨ (a.2 = b.2 ∧ a.1 < b.1)

/-! ## Chunker lemmas -/

lemma punct_not_space {c : Char} (h : isPunct c = true) : isPySpace c = false := by
  simp only [isPunct, Bool.or_eq_true, beq_iff_eq] at h
  rcases h with (h | h) | h <;> subst h <;> rfl

lemma collapseAux_true_head (cs : List Char) :
    ∀ c, (collapseAux true cs).head? = some c → isPySpace c = false := by
  induction cs with
  | nil => intro c h; simp [collapseAux] at h
  | cons d ds ih =>
    intro c h
    cases hd : isPySpace d
    · rw [collapseAux, hd] at h
      simp only [Bool.false_eq_true, if_false, List.head?_cons] at h
      cases h
      exact hd
    · rw [collapseAux, hd] at h
      simp only [if_true] at h
      exact ih c h

lemma collapseAux_chain (cs : List Char) : ∀ b : Bool, NoTwoSpaces (collapseAux b cs) := by
  induction cs with
  | nil => intro b; simp [collapseAux, NoTwoSpaces]
  | cons d ds ih =>
    intro b
    cases hd : isPySpace d
    · rw [collapseAux, hd]
      simp only [Bool.false_eq_true, if_false]
      refine List.chain'_cons'.mpr ⟨?_, ih false⟩
      intro y _ hdt
      rw [hd] at hdt
      cases hdt
    · rw [collapseAux, hd]
      simp only [if_true]
      cases b
      · simp only [Bool.false_eq_true, if_false]
        refine List.chain'_cons'.mpr ⟨?_, ih true⟩
        intro y hy _
        exact collapseAux_true_head ds y hy
      · simp only [if_true]
        exact ih true

lemma collapseAux_spaces_spc (cs : List Char) :
    ∀ b : Bool, ∀ c ∈ collapseAux b cs, isPySpace c = true → c = ' ' := by
  induction cs with
  | nil => intro b c h; simp [collapseAux] at h
  | cons d ds ih =>
    intro b c hc hsp
    cases hd : isPySpace d
    · rw [collapseAux, hd] at hc
      simp only [Bool.false_eq_true, if_false, List.mem_cons] at hc
      rcases hc with rfl | hc
      · rw [hd] at hsp; cases hsp
      · exact ih false c hc hsp
    · rw [collapseAux, hd] at hc
      simp only [if_true] at hc
      cases b
      · simp only [Bool.false_eq_true, if_false, List.mem_cons] at hc
        rcases hc with rfl | hc
        · rfl
        · exact ih true c hc hsp
      · simp only [if_true] at hc
        exact ih true c hc hsp

lemma head?_dropWhile_false {α} {p : α → Bool} {l : List α} {c : α}
    (h : (l.dropWhile p).head? = some c) : p c = false := by
  have hw := List.head?_dropWhile_not p l
  rw [h] at hw
  exact hw

lemma getLast?_dropWhile_of_ne_nil {α} {p : α → Bool} {l : List α}
    (h : l.dropWhile p ≠ []) : (l.dropWhile p).getLast? = l.getLast? := by
  induction l with
  | nil => simp at h
  | cons a l ih =>
    cases hp : p a
    · rw [List.dropWhile_cons, hp]
      simp
    · rw [List.dropWhile_cons, hp] at h ⊢
      simp only [if_true] at h ⊢
      have hl : l ≠ [] := by
        intro hl
        exact h (by simp [hl])
      rw [ih h]
      obtain ⟨b, l', rfl⟩ := List.exists_cons_of_ne_nil hl
      simp

lemma chain_dropWhile {α} {R : α → α → Prop} {p : α → Bool} {l : List α}
    (h : l.Chain' R) : (l.dropWhile p).Chain' R := by
  induction l with
  | nil => exact h
  | cons a l ih =>
    rw [List.dropWhile_cons]
    split
    · exact ih h.tail
    · exact h

lemma noTwoSpaces_reverse {l : List Char} (h : NoTwoSpaces l) :
    NoTwoSpaces l.reverse := by
  rw [NoTwoSpaces, List.chain'_reverse]
  refine h.imp ?_
  intro a b hab hb
  cases ha : isPySpace a
  · rfl
  · rw [hab ha] at hb
    cases hb

lemma pyStripL_chain {l : List Char} (h : NoTwoSpaces l) :
    NoTwoSpaces (pyStripL l) :=
  noTwoSpaces_reverse (chain_dropWhile (noTwoSpaces_reverse (chain_dropWhile h)))

lemma pyStripL_subset {l : List Char} : ∀ c ∈ pyStripL l, c ∈ l := by
  intro c hc
  unfold pyStripL at hc
  rw [List.mem_reverse] at hc
  have h1 := List.dropWhile_subset (fun c => isPySpace c) hc
  rw [List.mem_reverse] at h1
  exact List.dropWhile_subset _ h1

lemma pyStripL_head? {l : List Char} {c : Char}
    (h : (pyStripL l).head? = some c) : isPySpace c = false := by
  unfold pyStripL at h
  rw [List.head?_reverse] at h
  have hne : ((l.dropWhile fun c => isPySpace c).reverse.dropWhile fun c => isPySpace c) ≠ [] := by
    intro h0
    rw [h0] at h
    cases h
  rw [getLast?_dropWhile_of_ne_nil hne, List.getLast?_reverse] at h
  exact head?_dropWhile_false h

lemma pyStripL_getLast? {l : List Char} {c : Char}
    (h : (pyStripL l).getLast? = some c) : isPySpace c = false := by
  unfold pyStripL at h
  rw [List.getLast?_reverse] at h
  exact head?_dropWhile_false h

lemma normalizeL_chain (l : List Char) : NoTwoSpaces (normalizeL l) :=
  pyStripL_chain (collapseAux_chain l false)

lemma normalizeL_spaces_spc (l : List Char) :
    ∀ c ∈ normalizeL l, isPySpace c = true → c = ' ' :=
  fun c hc => collapseAux_spaces_spc l false c (pyStripL_subset c hc)

lemma normalizeL_head? {l : List Char} {c : Char}
    (h : (normalizeL l).head? = some c) : isPySpace c = false :=
  pyStripL_head? h

lemma normalizeL_getLast? {l : List Char} {c : Char}
    (h : (normalizeL l).getLast? = some c) : isPySpace c = false :=
  pyStripL_getLast? h

lemma splitSentAux_ne_nil (l : List Char) (acc : List Char) (b : Bool) :
    splitSentAux l acc b ≠ [] := by
  induction l generalizing acc b with
  | nil => simp [splitSentAux]
  | cons c cs ih =>
    rw [splitSentAux]
    split
    · exact ih acc b
    · split
      · simp
      · exact ih _ false

lemma joinSpL_cons_ne (t : List Char) (ts : List (List Char)) (h : ts ≠ []) :
    joinSpL (t :: ts) = t ++ ' ' :: joinSpL ts := by
  obtain ⟨t', ts', rfl⟩ := List.exists_cons_of_ne_nil h
  rfl

lemma splitSentAux_true_eq (cs : List Char)
    (h : ∀ c, cs.head? = some c → isPySpace c = false) :
    splitSentAux cs [] true = splitSentAux cs [] false := by
  cases cs with
  | nil => rfl
  | cons d ds =>
    have hd := h d rfl
    rw [splitSentAux, splitSentAux]
    simp [hd, headIsPunct]

lemma joinSpL_splitSentAux : ∀ (l acc : List Char),
    NoTwoSpaces l → (∀ c ∈ l, isPySpace c = true → c = ' ') →
    joinSpL (splitSentAux l acc false) = acc.reverse ++ l := by
  intro l
  induction l with
  | nil =>
    intro acc _ _
    simp [splitSentAux, joinSpL]
  | cons c cs ih =>
    intro acc hch hsp
    rw [splitSentAux]
    simp only [Bool.false_and, Bool.false_eq_true, if_false]
    by_cases hg : (isPySpace c && headIsPunct acc) = true
    · rw [if_pos hg]
      obtain ⟨hc, _⟩ := Bool.and_eq_true_iff.mp hg
      have hc' : c = ' ' := hsp c (List.mem_cons_self _ _) hc
      have hhead : ∀ d, cs.head? = some d → isPySpace d = false := by
        intro d hd
        cases cs with
        | nil => cases hd
        | cons e es =>
          cases hd
          exact (List.chain'_cons'.mp hch).1 d rfl hc
      rw [splitSentAux_true_eq cs hhead,
        joinSpL_cons_ne _ _ (splitSentAux_ne_nil cs [] false),
        ih [] (List.chain'_cons'.mp hch).2
          (fun d hd => hsp d (List.mem_cons_of_mem _ hd))]
      simp [hc']
    · rw [if_neg hg]
      rw [ih (c :: acc) (List.chain'_cons'.mp hch).2
        (fun d hd => hsp d (List.mem_cons_of_mem _ hd))]
      simp

lemma splitSentAux_clean : ∀ (l acc : List Char),
    NoTwoSpaces l →
    (∀ c, (acc.reverse ++ l).getLast? = some c → isPySpace c = false) →
    acc.reverse ++ l ≠ [] →
    (∀ c, acc.getLast? = some c → isPySpace c = false) →
    (acc = [] → ∀ c, l.head? = some c → isPySpace c = false) →
    ∀ t ∈ splitSentAux l acc false, CleanTok t := by
  intro l
  induction l with
  | nil =>
    intro acc _ h2 h3 h4 _ t ht
    rw [splitSentAux] at ht
    rcases List.mem_singleton.mp ht with rfl
    refine ⟨?_, ?_, ?_⟩
    · intro h0
      apply h3
      rw [List.append_nil]
      exact h0
    · intro c hc
      rw [List.head?_reverse] at hc
      exact h4 c hc
    · intro c hc
      apply h2 c
      rwa [List.append_nil]
  | cons c cs ih =>
    intro acc hch h2 _ h4 h5 t ht
    rw [splitSentAux] at ht
    simp only [Bool.false_and, Bool.false_eq_true, if_false] at ht
    by_cases hg : (isPySpace c && headIsPunct acc) = true
    · rw [if_pos hg] at ht
      obtain ⟨hc, hp⟩ := Bool.and_eq_true_iff.mp hg
      obtain ⟨p, as, rfl⟩ : ∃ p as, acc = p :: as := by
        cases acc with
        | nil => cases hp
        | cons p as => exact ⟨p, as, rfl⟩
      have hpn : isPunct p = true := hp
      have hcs : cs ≠ [] := by
        rintro rfl
        have := h2 c (by simp)
        rw [hc] at this
        cases this
      have hhead : ∀ d, cs.head? = some d → isPySpace d = false := by
        intro d hd
        obtain ⟨e, es, rfl⟩ := List.exists_cons_of_ne_nil hcs
        cases hd
        exact (List.chain'_cons'.mp hch).1 d rfl hc
      rw [splitSentAux_true_eq cs hhead] at ht
      rcases List.mem_cons.mp ht with rfl | ht
      · refine ⟨by simp, ?_, ?_⟩
        · intro d hd
          rw [List.head?_reverse] at hd
          exact h4 d hd
        · intro d hd
          rw [List.getLast?_reverse] at hd
          cases hd
          exact punct_not_space hpn
      · refine ih [] (List.chain'_cons'.mp hch).2 ?_ (by simpa using hcs) ?_ ?_ t ht
        · intro d hd
          simp only [List.reverse_nil, List.nil_append] at hd
          apply h2 d
          rw [List.getLast?_append]
          obtain ⟨e, es, rfl⟩ := List.exists_cons_of_ne_nil hcs
          rw [List.getLast?_cons_cons]
          simp [hd]
        · intro d hd
          cases hd
        · intro _ d hd
          exact hhead d hd
    · rw [if_neg hg] at ht
      refine ih (c :: acc) (List.chain'_cons'.mp hch).2 ?_ (by simp) ?_ (by simp) t ht
      · intro d hd
        apply h2 d
        rw [List.reverse_cons, List.append_assoc] at hd
        simpa using hd
      · intro d hd
        cases acc with
        | nil =>
          simp only [List.getLast?_singleton] at hd
          cases hd
          exact h5 rfl c rfl
        | cons a as =>
          rw [List.getLast?_cons_cons] at hd
          exact h4 d hd

lemma splitSentences_clean (l : List Char) (hne : normalizeL l ≠ []) :
    ∀ t ∈ splitSentAux (normalizeL l) [] false, CleanTok t :=
  splitSentAux_clean (normalizeL l) [] (normalizeL_chain l)
    (fun c h => normalizeL_getLast? (by simpa using h))
    (by simpa using hne)
    (fun c h => by cases h)
    (fun _ c h => normalizeL_head? h)

lemma joinTrailL_append (a b : List (List Char)) :
    joinTrailL (a ++ b) = joinTrailL a ++ joinTrailL b := by
  induction a with
  | nil => simp [joinTrailL]
  | cons t ts ih => simp [joinTrailL, ih]

lemma joinTrailL_ne_nil {g : List (List Char)} (hg : g ≠ []) :
    joinTrailL g ≠ [] := by
  obtain ⟨t, ts, rfl⟩ := List.exists_cons_of_ne_nil hg
  simp [joinTrailL]

lemma joinTrailL_eq_joinSpL {g : List (List Char)} (hg : g ≠ []) :
    joinTrailL g = joinSpL g ++ [' '] := by
  induction g with
  | nil => cases hg rfl
  | cons t ts ih =>
    cases ts with
    | nil => simp [joinTrailL, joinSpL]
    | cons t' ts' =>
      rw [joinTrailL, ih (by simp), joinSpL_cons_ne t (t' :: ts') (by simp)]
      simp

lemma joinSpL_ne_nil {g : List (List Char)} (hne : g ≠ [])
    (hclean : ∀ t ∈ g, CleanTok t) : joinSpL g ≠ [] := by
  obtain ⟨t, ts, rfl⟩ := List.exists_cons_of_ne_nil hne
  cases ts with
  | nil => exact (hclean t (by simp)).1
  | cons t' ts' =>
    rw [joinSpL_cons_ne _ _ (by simp)]
    simp

lemma joinSpL_head? {g : List (List Char)} (hclean : ∀ t ∈ g, CleanTok t) :
    ∀ c, (joinSpL g).head? = some c → isPySpace c = false := by
  intro c hc
  cases g with
  | nil => cases hc
  | cons t ts =>
    have ht := hclean t (by simp)
    obtain ⟨d, t', rfl⟩ := List.exists_cons_of_ne_nil ht.1
    cases ts with
    | nil =>
      rw [show joinSpL [d :: t'] = d :: t' from rfl] at hc
      cases hc
      exact ht.2.1 c rfl
    | cons u us =>
      rw [joinSpL_cons_ne _ _ (by simp)] at hc
      rw [List.cons_append, List.head?_cons] at hc
      cases hc
      exact ht.2.1 c rfl

lemma joinSpL_getLast? {g : List (List Char)} (hclean : ∀ t ∈ g, CleanTok t) :
    ∀ c, (joinSpL g).getLast? = some c → isPySpace c = false := by
  induction g with
  | nil => intro c hc; cases hc
  | cons t ts ih =>
    intro c hc
    cases ts with
    | nil => exact (hclean t (by simp)).2.2 c hc
    | cons t' ts' =>
      have hrest : ∀ u ∈ t' :: ts', CleanTok u :=
        fun u hu => hclean u (List.mem_cons_of_mem _ hu)
      have hne := joinSpL_ne_nil (List.cons_ne_nil t' ts') hrest
      obtain ⟨e, es, hes⟩ := List.exists_cons_of_ne_nil hne
      rw [joinSpL_cons_ne _ _ (List.cons_ne_nil t' ts'), List.getLast?_append, hes,
        List.getLast?_cons_cons, ← hes] at hc
      cases hJ : (joinSpL (t' :: ts')).getLast? with
      | none =>
        rw [List.getLast?_eq_none_iff] at hJ
        exact absurd hJ hne
      | some y =>
        rw [hJ] at hc
        have hyc : y = c := by simpa using hc
        exact ih hrest c (hyc ▸ hJ)

lemma pyStripL_clean_append_space (x : List Char) (hx : x ≠ [])
    (hh : ∀ c, x.head? = some c → isPySpace c = false)
    (hl : ∀ c, x.getLast? = some c → isPySpace c = false) :
    pyStripL (x ++ [' ']) = x := by
  obtain ⟨d, x', rfl⟩ := List.exists_cons_of_ne_nil hx
  have hd : isPySpace d = false := hh d rfl
  have hkeep : (x'.reverse ++ [d]).dropWhile (fun c => isPySpace c) = x'.reverse ++ [d] := by
    cases hx' : x'.reverse with
    | nil =>
      simp only [List.nil_append]
      rw [List.dropWhile_cons_of_neg (by simp [hd])]
    | cons c es =>
      have hc : isPySpace c = false := by
        apply hl
        rw [← List.head?_reverse, List.reverse_cons, hx']
        rfl
      simp only [List.cons_append]
      rw [List.dropWhile_cons_of_neg (by simp [hc])]
  calc pyStripL ((d :: x') ++ [' '])
      = ((((d :: x') ++ [' ']).dropWhile fun c => isPySpace c).reverse.dropWhile
          fun c => isPySpace c).reverse := rfl
    _ = (((d :: x') ++ [' ']).reverse.dropWhile fun c => isPySpace c).reverse := by
          rw [List.cons_append, List.dropWhile_cons_of_neg (by simp [hd])]
    _ = ((' ' :: (x'.reverse ++ [d])).dropWhile fun c => isPySpace c).reverse := by
          congr 1
          simp
    _ = ((x'.reverse ++ [d]).dropWhile fun c => isPySpace c).reverse := by
          rw [List.dropWhile_cons_of_pos (by rfl)]
    _ = (x'.reverse ++ [d]).reverse := by rw [hkeep]
    _ = d :: x' := by simp

lemma pyStripL_joinTrail {g : List (List Char)} (hg : g ≠ [])
    (hclean : ∀ t ∈ g, CleanTok t) :
    pyStripL (joinTrailL g) = joinSpL g := by
  rw [joinTrailL_eq_joinSpL hg]
  exact pyStripL_clean_append_space _ (joinSpL_ne_nil hg hclean)
    (joinSpL_head? hclean) (joinSpL_getLast? hclean)

lemma joinSpL_append {a b : List (List Char)} (ha : a ≠ []) (hb : b ≠ []) :
    joinSpL (a ++ b) = joinSpL a ++ ' ' :: joinSpL b := by
  induction a with
  | nil => cases ha rfl
  | cons t ts ih =>
    cases ts with
    | nil =>
      rw [List.singleton_append, joinSpL_cons_ne t b hb]
      rfl
    | cons t' ts' =>
      rw [List.cons_append, joinSpL_cons_ne t ((t' :: ts') ++ b) (by simp),
        ih (by simp), joinSpL_cons_ne t (t' :: ts') (by simp)]
      simp

lemma joinSpL_map_join (groups : List (List (List Char)))
    (hne : ∀ h ∈ groups, h ≠ []) :
    joinSpL (groups.map joinSpL) = joinSpL groups.flatten := by
  induction groups with
  | nil => rfl
  | cons g gs ih =>
    cases gs with
    | nil => simp [joinSpL]
    | cons g' gs' =>
      have hg : g ≠ [] := hne g (by simp)
      have hjoin : (g' :: gs').flatten ≠ [] := by
        have hg' : g' ≠ [] := hne g' (by simp)
        obtain ⟨t, ts, rfl⟩ := List.exists_cons_of_ne_nil hg'
        simp
      calc joinSpL (List.map joinSpL (g :: g' :: gs'))
          = joinSpL g ++ ' ' :: joinSpL (List.map joinSpL (g' :: gs')) := by
            rw [List.map_cons]
            exact joinSpL_cons_ne _ _ (by simp)
        _ = joinSpL g ++ ' ' :: joinSpL ((g' :: gs').flatten) := by
            rw [ih (fun h hh => hne h (List.mem_cons_of_mem _ hh))]
        _ = joinSpL (g ++ (g' :: gs').flatten) := (joinSpL_append hg hjoin).symm
        _ = joinSpL ((g :: g' :: gs').flatten) := rfl

/-- The main invariant of the greedy loop: starting from accumulated
sentences `g` (so `current_chunk = joinTrailL g`), the loop emits the
stripped accumulated chunks of some grouping of `g ++ ss` into consecutive
nonempty groups, each group either fitting the size bound or consisting of
a single sentence. -/
lemma chunkLoop_spec (n : ℕ) : ∀ (ss chunks g : List (List Char)),
    (∀ t ∈ ss, CleanTok t) → (∀ t ∈ g, CleanTok t) →
    (g ≠ [] → (joinTrailL g).length ≤ n ∨ ∃ t, g = [t]) →
    ∃ groups : List (List (List Char)),
      groups.flatten = g ++ ss ∧
      (∀ h ∈ groups, h ≠ []) ∧
      chunkLoop n ss chunks (joinTrailL g) = chunks ++ groups.map joinSpL ∧
      (∀ h ∈ groups, (joinSpL h).length ≤ n ∨ ∃ t, h = [t]) := by
  intro ss
  induction ss with
  | nil =>
    intro chunks g _ hg hinv
    by_cases hg0 : g = []
    · subst hg0
      exact ⟨[], by simp, by simp, by simp [chunkLoop, joinTrailL], by simp⟩
    · refine ⟨[g], by simp, by simpa using hg0, ?_, ?_⟩
      · rw [chunkLoop, if_neg (joinTrailL_ne_nil hg0), pyStripL_joinTrail hg0 hg]
        simp
      · intro h hh
        rcases List.mem_singleton.mp hh with rfl
        rcases hinv hg0 with hb | hb
        · left
          have hlen := congrArg List.length (joinTrailL_eq_joinSpL hg0)
          simp only [List.length_append, List.length_singleton] at hlen
          omega
        · right
          exact hb
  | cons s rest ih =>
    intro chunks g hss hg hinv
    have hsClean : CleanTok s := hss s (List.mem_cons_self _ _)
    have hrest : ∀ t ∈ rest, CleanTok t :=
      fun t ht => hss t (List.mem_cons_of_mem _ ht)
    rw [chunkLoop]
    by_cases hcond : (joinTrailL g).length + s.length < n
    · rw [if_pos hcond]
      have hcur : joinTrailL g ++ s ++ [' '] = joinTrailL (g ++ [s]) := by
        rw [joinTrailL_append]
        simp [joinTrailL]
      rw [hcur]
      obtain ⟨groups, hj, hne, hres, hbd⟩ := ih chunks (g ++ [s]) hrest
        (by
          intro t ht
          rcases List.mem_append.mp ht with ht | ht
          · exact hg t ht
          · rcases List.mem_singleton.mp ht with rfl
            exact hsClean)
        (fun _ => Or.inl (by
          rw [joinTrailL_append]
          simp only [List.length_append, joinTrailL, List.length_cons,
            List.length_nil, List.append_nil]
          omega))
      exact ⟨groups, by rw [hj]; simp, hne, hres, hbd⟩
    · rw [if_neg hcond]
      by_cases hg0 : g = []
      · subst hg0
        rw [if_pos (show joinTrailL ([] : List (List Char)) = [] from rfl)]
        have hs : s ++ [' '] = joinTrailL [s] := by simp [joinTrailL]
        rw [hs]
        obtain ⟨groups, hj, hne, hres, hbd⟩ := ih chunks [s] hrest
          (by
            intro t ht
            rcases List.mem_singleton.mp ht with rfl
            exact hsClean)
          (fun _ => Or.inr ⟨s, rfl⟩)
        exact ⟨groups, by simpa using hj, hne, hres, hbd⟩
      · rw [if_neg (joinTrailL_ne_nil hg0), pyStripL_joinTrail hg0 hg]
        have hs : s ++ [' '] = joinTrailL [s] := by simp [joinTrailL]
        rw [hs]
        obtain ⟨groups, hj, hne, hres, hbd⟩ := ih (chunks ++ [joinSpL g]) [s] hrest
          (by
            intro t ht
            rcases List.mem_singleton.mp ht with rfl
            exact hsClean)
          (fun _ => Or.inr ⟨s, rfl⟩)
        refine ⟨g :: groups, ?_, ?_, ?_, ?_⟩
        · rw [List.flatten_cons, hj]
          simp
        · intro h hh
          rcases List.mem_cons.mp hh with rfl | hh
          · exact hg0
          · exact hne h hh
        · rw [hres, List.map_cons]
          simp
        · intro h hh
          rcases List.mem_cons.mp hh with rfl | hh
          · rcases hinv hg0 with hb | hb
            · left
              have hlen := congrArg List.length (joinTrailL_eq_joinSpL hg0)
              simp only [List.length_append, List.length_singleton] at hlen
              omega
            · right
              exact hb
          · exact hbd h hh

lemma chunk_textL_empty {l : List Char} (h : normalizeL l = []) (n : ℕ) :
    chunk_textL l n = [[]] := by
  unfold chunk_textL
  rw [h]
  show chunkLoop n [[]] [] [] = [[]]
  rcases Nat.eq_zero_or_pos n with hn | hn
  · subst hn
    simp [chunkLoop, pyStripL, isPySpace]
  · simp [chunkLoop, hn, pyStripL, isPySpace]

/-! ## Claim C3: chunking text that normalizes to the empty string -/

/-- C3 counterexample: for the input `""` (empty after whitespace
normalization) the chunker does NOT return an empty sequence — it returns
the one-element list `[""]` (the loop body runs once on the single empty
token that `re.split` yields on `""`), and `process_pdf` consequently
reports success rather than failure. -/
theorem C3_counterexample :
    normalize "" = "" ∧
    load_pdf_chunks "" Config.CHUNK_SIZE = [""] ∧
    load_pdf_chunks "" Config.CHUNK_SIZE ≠ [] ∧
    (process_pdf "").2 = true := by
  refine ⟨rfl, rfl, ?_, rfl⟩
  decide

/-- C3 amended: for input text that is empty after whitespace
normalization, the chunker returns the one-element sequence `[""]` (for any
chunk size), so `process_pdf` reports success and ingestion proceeds to the
embedding call instead of failing. -/
theorem chunker_empty_input (text : String) (chunkSize : ℕ)
    (h : normalize text = "") :
    load_pdf_chunks text chunkSize = [""] ∧ (process_pdf text).2 = true := by
  have hdata : normalizeL text.data = [] := congrArg String.data h
  have hl : ∀ n, chunk_textL text.data n = [[]] := by
    intro n
    unfold chunk_textL
    rw [hdata]
    show chunkLoop n [[]] [] [] = [[]]
    rcases Nat.eq_zero_or_pos n with hn | hn
    · subst hn
      simp [chunkLoop, pyStripL, isPySpace]
    · simp [chunkLoop, hn, pyStripL, isPySpace]
  constructor
  · show (chunk_textL text.data chunkSize).map String.mk = [""]
    rw [hl]
    rfl
  · simp [process_pdf, load_pdf_chunks, hl Config.CHUNK_SIZE]

/-- Witness for `chunker_empty_input` at the whitespace-only input `" "`. -/
theorem chunker_empty_input_witness :
    normalize " " = "" ∧
    (load_pdf_chunks " " 1000 = [""] ∧ (process_pdf " ").2 = true) :=
  ⟨rfl, chunker_empty_input " " 1000 rfl⟩

/-! ## Claim C7: chunk sizes, sentence integrity, lossless concatenation -/

lemma joinSp_map_mk (ls : List (List Char)) :
    joinSp (ls.map String.mk) = String.mk (joinSpL ls) := by
  unfold joinSp
  rw [List.map_map]
  congr 1
  have : (String.data ∘ String.mk) = id := rfl
  rw [this, List.map_id]

/-- C7: every chunk emitted by the chunker either fits within `chunkSize`
or is one of the sentence units (a single sentence emitted whole, which in
the remaining case is longer than `chunkSize`); the chunks partition the
sentence sequence into consecutive nonempty groups (no sentence is ever
split across chunks); and joining the chunks with single spaces reproduces
the normalized input text exactly. -/
theorem chunker_properties (text : String) (chunkSize : ℕ) :
    (∀ c ∈ load_pdf_chunks text chunkSize,
        c.length ≤ chunkSize ∨ c ∈ splitSentences text) ∧
    joinSp (load_pdf_chunks text chunkSize) = normalize text ∧
    ∃ groups : List (List String),
      groups.flatten = splitSentences text ∧
      (∀ g ∈ groups, g ≠ []) ∧
      load_pdf_chunks text chunkSize = groups.map joinSp := by
  by_cases h0 : normalizeL text.data = []
  · have hl : load_pdf_chunks text chunkSize = [""] := by
      show (chunk_textL text.data chunkSize).map String.mk = [""]
      rw [chunk_textL_empty h0]
      rfl
    have hsents : splitSentences text = [""] := by
      unfold splitSentences
      rw [h0]
      rfl
    refine ⟨?_, ?_, [[""]], ?_, ?_, ?_⟩
    · intro c hc
      rw [hl] at hc
      rcases List.mem_singleton.mp hc with rfl
      right
      rw [hsents]
      simp
    · rw [hl, show normalize text = String.mk (normalizeL text.data) from rfl, h0]
      rfl
    · rw [hsents]
      rfl
    · intro g hg
      rcases List.mem_singleton.mp hg with rfl
      simp
    · rw [hl]
      rfl
  · have hclean := splitSentences_clean text.data h0
    obtain ⟨groupsL, hjoin, hne, hres, hbd⟩ :=
      chunkLoop_spec chunkSize (splitSentAux (normalizeL text.data) [] false) [] []
        hclean (by simp) (fun h => absurd rfl h)
    simp only [List.nil_append] at hjoin
    have hchunks : chunk_textL text.data chunkSize = groupsL.map joinSpL := by
      unfold chunk_textL
      simpa using hres
    refine ⟨?_, ?_, groupsL.map (List.map String.mk), ?_, ?_, ?_⟩
    · intro c hc
      unfold load_pdf_chunks at hc
      rw [hchunks] at hc
      obtain ⟨x, hx, rfl⟩ := List.mem_map.mp hc
      obtain ⟨h, hh, rfl⟩ := List.mem_map.mp hx
      rcases hbd h hh with hb | ⟨t, rfl⟩
      · left
        simpa using hb
      · right
        have ht : t ∈ groupsL.flatten := List.mem_flatten.mpr ⟨[t], hh, by simp⟩
        rw [hjoin] at ht
        exact List.mem_map.mpr ⟨t, ht, rfl⟩
    · show joinSp ((chunk_textL text.data chunkSize).map String.mk) = normalize text
      rw [hchunks, joinSp_map_mk, joinSpL_map_join groupsL hne, hjoin,
        joinSpL_splitSentAux (normalizeL text.data) [] (normalizeL_chain text.data)
          (normalizeL_spaces_spc text.data)]
      rfl
    · rw [← List.map_flatten, hjoin]
      rfl
    · intro g hg
      obtain ⟨h, hh, rfl⟩ := List.mem_map.mp hg
      simp only [ne_eq, List.map_eq_nil_iff]
      exact hne h hh
    · show (chunk_textL text.data chunkSize).map String.mk = _
      rw [hchunks, List.map_map, List.map_map]
      exact List.map_congr_left fun h hh => (joinSp_map_mk h).symm

/-! ## Claims C8 and C9: cosine similarity -/

lemma dotList_cons (x y : ℝ) (a b : List ℝ) :
    dotList (x :: a) (y :: b) = x * y + dotList a b := by
  simp [dotList]

lemma dotList_self_nonneg (v : List ℝ) : 0 ≤ dotList v v := by
  induction v with
  | nil => simp [dotList]
  | cons x xs ih =>
    rw [dotList_cons]
    have := mul_self_nonneg x
    linarith

lemma dotList_self_pos {a : List ℝ} (h : ∃ x ∈ a, x ≠ 0) : 0 < dotList a a := by
  induction a with
  | nil => simp at h
  | cons y ys ih =>
    rw [dotList_cons]
    obtain ⟨x, hx, hx0⟩ := h
    rcases List.mem_cons.mp hx with rfl | hx'
    · have h1 : 0 < x * x := mul_self_pos.mpr hx0
      have h2 := dotList_self_nonneg ys
      linarith
    · have h1 := mul_self_nonneg y
      have h2 := ih ⟨x, hx', hx0⟩
      linarith

lemma norm2_mul_self (v : List ℝ) : norm2 v * norm2 v = dotList v v :=
  Real.mul_self_sqrt (dotList_self_nonneg v)

lemma sum_zipWith_mul (a : List ℝ) : ∀ b : List ℝ,
    (List.zipWith (fun x y => x * y) a b).sum =
      ∑ i ∈ Finset.range (min a.length b.length), a.getD i 0 * b.getD i 0 := by
  induction a with
  | nil => intro b; simp
  | cons x a ih =>
    intro b
    cases b with
    | nil => simp
    | cons y b =>
      simp only [List.zipWith_cons_cons, List.sum_cons, List.length_cons,
        Nat.succ_min_succ]
      rw [ih b, Finset.sum_range_succ']
      simp only [List.getD_cons_succ, List.getD_cons_zero]
      ring

lemma dotList_sq_le (a b : List ℝ) (h : a.length = b.length) :
    dotList a b ^ 2 ≤ dotList a a * dotList b b := by
  unfold dotList
  rw [sum_zipWith_mul a b, sum_zipWith_mul a a, sum_zipWith_mul b b, h]
  simp only [min_self]
  calc (∑ i ∈ Finset.range b.length, a.getD i 0 * b.getD i 0) ^ 2
      ≤ (∑ i ∈ Finset.range b.length, a.getD i 0 ^ 2) *
          ∑ i ∈ Finset.range b.length, b.getD i 0 ^ 2 :=
        Finset.sum_mul_sq_le_sq_mul_sq _ _ _
    _ = (∑ i ∈ Finset.range b.length, a.getD i 0 * a.getD i 0) *
          ∑ i ∈ Finset.range b.length, b.getD i 0 * b.getD i 0 := by
        congr 1 <;> exact Finset.sum_congr rfl fun i _ => by ring

lemma dotList_comm (a b : List ℝ) : dotList a b = dotList b a := by
  unfold dotList
  rw [List.zipWith_comm_of_comm]
  intro x y
  ring

/-- C9: cosine similarity is symmetric in its two arguments. -/
theorem cosine_symm (a b : List ℝ) :
    cosine_similarity a b = cosine_similarity b a := by
  unfold cosine_similarity
  rw [dotList_comm a b, mul_comm (norm2 a) (norm2 b)]
  by_cases h : norm2 a = 0 ∨ norm2 b = 0
  · rw [if_pos h, if_pos (Or.symm h)]
  · rw [if_neg h, if_neg fun h2 => h (Or.symm h2)]

/-- C8: with exact arithmetic, `_cosine_similarity` returns 0 when either
norm is zero (the division is guarded); otherwise it returns
`dot / (norm1 * norm2)`, which lies in `[-1, 1]` (for index-aligned
vectors); and the self-similarity of any vector with a nonzero entry is
exactly 1. -/
theorem cosine_bounds (a b : List ℝ) (hlen : a.length = b.length) :
    ((norm2 a = 0 ∨ norm2 b = 0) → cosine_similarity a b = 0) ∧
    (¬(norm2 a = 0 ∨ norm2 b = 0) →
      cosine_similarity a b = dotList a b / (norm2 a * norm2 b) ∧
      -1 ≤ cosine_similarity a b ∧ cosine_similarity a b ≤ 1) ∧
    ((∃ x ∈ a, x ≠ 0) → cosine_similarity a a = 1) := by
  refine ⟨?_, ?_, ?_⟩
  · intro h
    simp [cosine_similarity, h]
  · intro h
    push_neg at h
    obtain ⟨ha, hb⟩ := h
    have hval : cosine_similarity a b = dotList a b / (norm2 a * norm2 b) := by
      unfold cosine_similarity
      rw [if_neg (by push_neg; exact ⟨ha, hb⟩)]
    have hpa : 0 < dotList a a := by
      rcases lt_or_eq_of_le (dotList_self_nonneg a) with h | h
      · exact h
      · exact absurd (by rw [norm2, ← h, Real.sqrt_zero]) ha
    have hpb : 0 < dotList b b := by
      rcases lt_or_eq_of_le (dotList_self_nonneg b) with h | h
      · exact h
      · exact absurd (by rw [norm2, ← h, Real.sqrt_zero]) hb
    have hprod : 0 < norm2 a * norm2 b :=
      mul_pos (Real.sqrt_pos.mpr hpa) (Real.sqrt_pos.mpr hpb)
    have hsq : dotList a b ^ 2 ≤ (norm2 a * norm2 b) ^ 2 := by
      calc dotList a b ^ 2 ≤ dotList a a * dotList b b := dotList_sq_le a b hlen
        _ = (norm2 a * norm2 b) ^ 2 := by
            rw [mul_pow, sq, sq, norm2_mul_self a, norm2_mul_self b]
    have habs : |dotList a b| ≤ norm2 a * norm2 b := by
      calc |dotList a b| = Real.sqrt (dotList a b ^ 2) := (Real.sqrt_sq_eq_abs _).symm
        _ ≤ Real.sqrt ((norm2 a * norm2 b) ^ 2) := Real.sqrt_le_sqrt hsq
        _ = |norm2 a * norm2 b| := Real.sqrt_sq_eq_abs _
        _ = norm2 a * norm2 b := abs_of_pos hprod
    have hbound : |cosine_similarity a b| ≤ 1 := by
      rw [hval, abs_div, abs_of_pos hprod]
      exact (div_le_one hprod).mpr habs
    obtain ⟨h1, h2⟩ := abs_le.mp hbound
    exact ⟨hval, h1, h2⟩
  · intro h
    have hpa := dotList_self_pos h
    have ha : norm2 a ≠ 0 := (Real.sqrt_pos.mpr hpa).ne'
    unfold cosine_similarity
    rw [if_neg (by push_neg; exact ⟨ha, ha⟩), norm2_mul_self]
    exact div_self hpa.ne'

/-- Witness for `cosine_bounds`: self-similarity of the unit vector
`[1, 0, 0]` is 1. -/
theorem cosine_bounds_witness :
    cosine_similarity [(1 : ℝ), 0, 0] [(1 : ℝ), 0, 0] = 1 :=
  (cosine_bounds [(1 : ℝ), 0, 0] [(1 : ℝ), 0, 0] rfl).2.2 ⟨1, by simp, one_ne_zero⟩

/-! ## Claims C1 and C2: the ranking of `search` -/

lemma insertDesc_perm (x : ℕ × ℝ) (l : List (ℕ × ℝ)) :
    List.Perm (insertDesc x l) (x :: l) := by
  induction l with
  | nil => rfl
  | cons y ys ih =>
    unfold insertDesc
    split
    · rfl
    · exact (List.Perm.cons y ih).trans (List.Perm.swap x y ys)

lemma sortDesc_perm (l : List (ℕ × ℝ)) : List.Perm (sortDesc l) l := by
  induction l with
  | nil => rfl
  | cons x xs ih =>
    exact (insertDesc_perm x (sortDesc xs)).trans (List.Perm.cons x ih)

lemma length_sortDesc (l : List (ℕ × ℝ)) : (sortDesc l).length = l.length :=
  (sortDesc_perm l).length_eq

lemma mem_insertDesc {x z : ℕ × ℝ} {l : List (ℕ × ℝ)} :
    z ∈ insertDesc x l ↔ z = x ∨ z ∈ l := by
  rw [(insertDesc_perm x l).mem_iff]
  simp

lemma lexOrd_score_le {a b : ℕ × ℝ} (h : lexOrd a b) : b.2 ≤ a.2 := by
  rcases h with h | ⟨h, _⟩
  · exact le_of_lt h
  · exact le_of_eq h.symm

lemma pairwise_insertDesc {x : ℕ × ℝ} {l : List (ℕ × ℝ)}
    (hl : l.Pairwise lexOrd) (hx : ∀ y ∈ l, x.1 < y.1) :
    (insertDesc x l).Pairwise lexOrd := by
  induction l with
  | nil => simp [insertDesc]
  | cons y ys ih =>
    unfold insertDesc
    by_cases hcmp : y.2 ≤ x.2
    · rw [if_pos hcmp]
      refine List.pairwise_cons.mpr ⟨?_, hl⟩
      intro z hz
      rcases List.mem_cons.mp hz with rfl | hz2
      · rcases lt_or_eq_of_le hcmp with h | h
        · exact Or.inl h
        · exact Or.inr ⟨h.symm, hx _ (List.mem_cons_self _ _)⟩
      · have hyz : lexOrd y z := (List.pairwise_cons.mp hl).1 z hz2
        have hzx : z.2 ≤ x.2 := le_trans (lexOrd_score_le hyz) hcmp
        rcases lt_or_eq_of_le hzx with h | h
        · exact Or.inl h
        · exact Or.inr ⟨h.symm, hx z (List.mem_cons_of_mem _ hz2)⟩
    · rw [if_neg hcmp]
      refine List.pairwise_cons.mpr
        ⟨?_, ih (List.pairwise_cons.mp hl).2
          (fun z hz => hx z (List.mem_cons_of_mem _ hz))⟩
      intro z hz
      rcases mem_insertDesc.mp hz with rfl | hz2
      · exact Or.inl (lt_of_not_le hcmp)
      · exact (List.pairwise_cons.mp hl).1 z hz2

lemma pairwise_sortDesc {l : List (ℕ × ℝ)}
    (h : l.Pairwise fun a b => a.1 < b.1) : (sortDesc l).Pairwise lexOrd := by
  induction l with
  | nil => simp [sortDesc]
  | cons x xs ih =>
    show (insertDesc x (sortDesc xs)).Pairwise lexOrd
    apply pairwise_insertDesc (ih (List.pairwise_cons.mp h).2)
    intro y hy
    exact (List.pairwise_cons.mp h).1 y ((sortDesc_perm xs).mem_iff.mp hy)

lemma enum_fst_range {α : Type} (l : List α) :
    (l.enum).map Prod.fst = List.range l.length := by
  rw [List.range_eq_range']
  exact List.enumFrom_map_fst 0 l

lemma enum_snd_id {α : Type} (l : List α) : (l.enum).map Prod.snd = l :=
  List.enumFrom_map_snd 0 l

lemma enum_len {α : Type} (l : List α) : (l.enum).length = l.length :=
  List.enumFrom_length

lemma fst_lt_of_mem_enum {α : Type} {p : ℕ × α} {l : List α}
    (h : p ∈ l.enum) : p.1 < l.length := by
  have h1 : p.1 ∈ (l.enum).map Prod.fst := List.mem_map_of_mem _ h
  rw [enum_fst_range] at h1
  exact List.mem_range.mp h1

lemma pairwise_fst_lt_enum {α : Type} (l : List α) :
    (l.enum).Pairwise fun a b => a.1 < b.1 := by
  have h2 : (List.range l.length).Pairwise (· < ·) := List.pairwise_lt_range _
  rw [← enum_fst_range, List.pairwise_map] at h2
  exact h2

lemma pairwise_enum_snd {α : Type} {S : α → α → Prop} {l : List α}
    (h : l.Pairwise S) : (l.enum).Pairwise fun a b => S a.2 b.2 := by
  have h2 : ((l.enum).map Prod.snd).Pairwise S := by
    rw [enum_snd_id]
    exact h
  exact List.pairwise_map.mp h2

/-- The similarity list `[(i, sim(q, e_i))]` built by the scoring loop. -/
noncomputable def simList (st : RAGState) (q : List ℝ) : List (ℕ × ℝ) :=
  st.embeddings.enum.map fun p => (p.1, cosine_similarity q p.2)

lemma search_some (st : RAGState) (q : List ℝ) (top_k : ℕ)
    (h : st.embeddings.isEmpty = false) :
    search st (some q) top_k =
      (((sortDesc (simList st q)).take top_k).enum).map fun r =>
        { id := r.1 + 1, text := st.documents.getD r.2.1 "",
          score := r.2.2, metadata := st.metadata.getD r.2.1 ⟨"", 0⟩ } := by
  unfold search simList
  simp only [h, Bool.false_eq_true, if_false]

lemma mem_sortDesc_sim_fst_lt {st : RAGState} {q : List ℝ} {p : ℕ × ℝ}
    (hp : p ∈ sortDesc (simList st q)) : p.1 < st.embeddings.length := by
  have h1 : p ∈ simList st q := (sortDesc_perm _).mem_iff.mp hp
  obtain ⟨e, he, rfl⟩ := List.mem_map.mp h1
  exact fst_lt_of_mem_enum he

lemma WF_chunk_id {st : RAGState} (hWF : WFState st) {d : ℕ}
    (hd : d < st.embeddings.length) :
    (st.metadata.getD d ⟨"", 0⟩).chunk_id = d := by
  have hlen : d < st.metadata.length := by rw [hWF.2.1]; exact hd
  rw [List.getD_eq_getElem?_getD, List.getElem?_eq_getElem hlen]
  have h3 := hWF.2.2 d hlen
  simpa [List.get_eq_getElem] using h3

lemma search_length (st : RAGState) (q : List ℝ) (top_k : ℕ) :
    (search st (some q) top_k).length = min top_k st.embeddings.length := by
  cases h : st.embeddings.isEmpty
  · rw [search_some st q top_k h]
    simp [length_sortDesc, simList]
  · unfold search
    rw [List.isEmpty_iff] at h
    simp [h]

/-- C2: on a successful query-embedding call, `search` returns exactly
`min top_k n` results, where `n` is the number of stored embeddings; on an
empty store it returns the empty list (before any embedding call, hence for
either outcome of it) rather than raising. -/
theorem search_result_count (st : RAGState) (q : List ℝ) (top_k : ℕ) :
    (search st (some q) top_k).length = min top_k st.embeddings.length ∧
    (st.embeddings = [] → ∀ e, search st e top_k = []) := by
  refine ⟨search_length st q top_k, ?_⟩
  intro h e
  unfold search
  rw [if_pos (by rw [List.isEmpty_iff]; exact h)]

/-- Witness for `search_result_count` on the empty initial store. -/
theorem search_result_count_witness :
    (search initState (some [1]) 3).length = 0 ∧ search initState none 3 = [] :=
  ⟨(search_result_count initState [1] 3).1,
   (search_result_count initState [1] 3).2 rfl none⟩

/-- C1: the results of `search` are ordered by strictly descending score
except for exact ties, which are ordered by ascending original chunk index
(read off the per-result metadata, which stores the chunk index under the
well-formedness invariant); and the `id` field of the results is exactly
`1, 2, 3, ...` — the 1-based position in this ordering, not the chunk
index. -/
theorem search_ordering (st : RAGState) (q : List ℝ) (top_k : ℕ)
    (hWF : WFState st) :
    (search st (some q) top_k).Pairwise
      (fun r s => s.score < r.score ∨
        (r.score = s.score ∧ r.metadata.chunk_id < s.metadata.chunk_id)) ∧
    (search st (some q) top_k).map SearchResult.id =
      List.range' 1 (search st (some q) top_k).length := by
  cases hemp : st.embeddings.isEmpty
  · have hsp : (sortDesc (simList st q)).Pairwise lexOrd := by
      apply pairwise_sortDesc
      unfold simList
      exact List.pairwise_map.mpr (pairwise_fst_lt_enum st.embeddings)
    have htop : ((sortDesc (simList st q)).take top_k).Pairwise lexOrd :=
      hsp.sublist (List.take_sublist top_k _)
    constructor
    · rw [search_some st q top_k hemp]
      apply List.pairwise_map.mpr
      have henum := pairwise_enum_snd htop
      refine henum.imp_of_mem ?_
      intro a b ha hb hab
      have ha2 : a.2 ∈ (sortDesc (simList st q)).take top_k := by
        have hm := List.mem_map_of_mem Prod.snd ha
        rwa [enum_snd_id] at hm
      have hb2 : b.2 ∈ (sortDesc (simList st q)).take top_k := by
        have hm := List.mem_map_of_mem Prod.snd hb
        rwa [enum_snd_id] at hm
      have hda : a.2.1 < st.embeddings.length :=
        mem_sortDesc_sim_fst_lt (List.mem_of_mem_take ha2)
      have hdb : b.2.1 < st.embeddings.length :=
        mem_sortDesc_sim_fst_lt (List.mem_of_mem_take hb2)
      simp only
      rw [WF_chunk_id hWF hda, WF_chunk_id hWF hdb]
      exact hab
    · rw [search_some st q top_k hemp]
      set top := (sortDesc (simList st q)).take top_k with htopdef
      rw [List.map_map]
      have hm : ((top.enum).map fun r => r.1 + 1) =
          ((top.enum).map Prod.fst).map (fun i => i + 1) := by
        rw [List.map_map]
        rfl
      calc ((top.enum).map fun r =>
              SearchResult.id
                { id := r.1 + 1, text := st.documents.getD r.2.1 "",
                  score := r.2.2, metadata := st.metadata.getD r.2.1 ⟨"", 0⟩ })
          = (top.enum).map fun r => r.1 + 1 := rfl
        _ = ((top.enum).map Prod.fst).map (fun i => i + 1) := hm
        _ = (List.range top.length).map (fun i => i + 1) := by
            rw [enum_fst_range]
        _ = List.range' 1 top.length := by
            rw [List.range'_eq_map_range]
            exact List.map_congr_left fun i _ => Nat.add_comm i 1
        _ = List.range' 1 ((top.enum).map fun r =>
              ({ id := r.1 + 1, text := st.documents.getD r.2.1 "",
                 score := r.2.2,
                 metadata := st.metadata.getD r.2.1 ⟨"", 0⟩ } : SearchResult)).length := by
            rw [List.length_map, enum_len]
  · have h0 : search st (some q) top_k = [] := by
      unfold search
      rw [if_pos hemp]
    rw [h0]
    exact ⟨List.Pairwise.nil, rfl⟩

/-- Witness for `search_ordering` on the orthonormal example corpus. -/
theorem search_ordering_witness :
    WFState exampleState ∧
    ((search exampleState (some [1, 0, 0]) 3).Pairwise
      (fun r s => s.score < r.score ∨
        (r.score = s.score ∧ r.metadata.chunk_id < s.metadata.chunk_id)) ∧
    (search exampleState (some [1, 0, 0]) 3).map SearchResult.id =
      List.range' 1 (search exampleState (some [1, 0, 0]) 3).length) := by
  have hWF : WFState exampleState := ⟨rfl, rfl, by decide⟩
  exact ⟨hWF, search_ordering exampleState [1, 0, 0] 3 hWF⟩

/-! ## Question-answering lemmas -/

lemma search_none (st : RAGState) (top_k : ℕ) : search st none top_k = [] := by
  unfold search
  by_cases h : st.embeddings.isEmpty = true
  · rw [if_pos h]
  · rw [if_neg h]

lemma search_example_ne_nil :
    search exampleState (some [1, 0, 0]) Config.TOP_K ≠ [] := by
  intro h0
  have h := search_length exampleState [1, 0, 0] Config.TOP_K
  rw [h0] at h
  simp [Config.TOP_K, exampleState] at h

/-! ## Claim C6: querying before any ingestion -/

/-- C6 counterexample: in the `rag_simple.py` backend, a question asked in
the initial state (no documents stored, no external calls made since the
empty store short-circuits `search`) yields status `"no_results"`, not
`"no_documents"` as the claim requires of `answer_question`. -/
theorem C6_counterexample :
    (RagSimple.answer_question initState none (Except.error "boom") "q").status =
      "no_results" ∧
    (RagSimple.answer_question initState none (Except.error "boom") "q").status ≠
      "no_documents" := by
  constructor
  · rfl
  · decide

/-- C6 amended: in the `simple_rag.py` backend (the one the frontend
imports), a question asked before any successful ingestion yields status
`"no_documents"` with an empty source list and the fixed explanatory
answer, and the result is the same for every provider outcome (no external
call is consulted); the `rag_simple.py` variant instead yields status
`"no_results"` (its empty store short-circuits `search`, so it makes no
external call either). -/
theorem answer_no_documents (st : RAGState) (e : Option (List ℝ))
    (g : Except String String) (q : String)
    (hd : st.documents = []) (he : st.embeddings = []) :
    SimpleRag.answer_question st e g q =
      { question := q, answer := noDocsAnswer, sources := [],
        status := "no_documents" } ∧
    SimpleRag.answer_question st e g q =
      SimpleRag.answer_question st none (Except.error "") q ∧
    RagSimple.answer_question st e g q =
      { question := q,
        answer := "I couldn\x27t find any relevant information in the document. Please make sure a document has been processed first.",
        sources := [], status := "no_results" } ∧
    RagSimple.answer_question st e g q =
      RagSimple.answer_question st none (Except.error "") q := by
  have hd2 : st.documents.isEmpty = true := by
    rw [List.isEmpty_iff]
    exact hd
  have hsearch : ∀ e2, search st e2 Config.TOP_K = [] := by
    intro e2
    unfold search
    rw [if_pos (by rw [List.isEmpty_iff]; exact he)]
  have hSimple : ∀ e2 g2, SimpleRag.answer_question st e2 g2 q =
      { question := q, answer := noDocsAnswer, sources := [],
        status := "no_documents" } := by
    intro e2 g2
    unfold SimpleRag.answer_question
    rw [if_pos hd2]
  have hRs : ∀ e2 g2, RagSimple.answer_question st e2 g2 q =
      { question := q,
        answer := "I couldn\x27t find any relevant information in the document. Please make sure a document has been processed first.",
        sources := [], status := "no_results" } := by
    intro e2 g2
    unfold RagSimple.answer_question
    rw [hsearch e2]
    rfl
  exact ⟨hSimple e g, (hSimple e g).trans (hSimple none (Except.error "")).symm,
    hRs e g, (hRs e g).trans (hRs none (Except.error "")).symm⟩

/-- Witness for `answer_no_documents` in the initial state. -/
theorem answer_no_documents_witness :
    SimpleRag.answer_question initState none (Except.ok "hi") "q" =
      { question := "q", answer := noDocsAnswer, sources := [],
        status := "no_documents" } ∧
    (RagSimple.answer_question initState none (Except.ok "hi") "q").status =
      "no_results" := by
  obtain ⟨h1, _, h3, _⟩ :=
    answer_no_documents initState none (Except.ok "hi") "q" rfl rfl
  exact ⟨h1, by rw [h3]⟩

/-! ## Claim C5: generation failure with available sources -/

/-- C5 counterexample: in the `rag_simple.py` backend, a failing generation
call with a nonempty ranked source list produces status `"error"` (with the
raw exception text in the answer), not `"fallback"` as the claim requires
of `answer_question`. -/
theorem C5_counterexample :
    (RagSimple.answer_question exampleState (some [1, 0, 0])
        (Except.error "boom") "q").sources ≠ [] ∧
    (RagSimple.answer_question exampleState (some [1, 0, 0])
        (Except.error "boom") "q").status = "error" ∧
    (RagSimple.answer_question exampleState (some [1, 0, 0])
        (Except.error "boom") "q").status ≠ "fallback" := by
  have hne := search_example_ne_nil
  have hfalse : (search exampleState (some [1, 0, 0]) Config.TOP_K).isEmpty = false := by
    rw [List.isEmpty_eq_false]
    exact hne
  have hunfold : RagSimple.answer_question exampleState (some [1, 0, 0])
      (Except.error "boom") "q" =
      { question := "q", answer := "Error generating answer: " ++ "boom",
        sources := search exampleState (some [1, 0, 0]) Config.TOP_K,
        status := "error" } := by
    unfold RagSimple.answer_question
    simp only [hfalse, Bool.false_eq_true, if_false]
  rw [hunfold]
  exact ⟨hne, rfl, by decide⟩

/-- C5 amended: in the `simple_rag.py` backend (the one the frontend
imports), whenever the generation call fails while at least one ranked
source is available, `answer_question` returns status `"fallback"` (the
raw failure is never propagated), and the synthesized answer is exactly the
fixed header followed, for each of the top 3 sources in rank order, by its
relevance score as a percentage and the first 200 characters of its text;
the `rag_simple.py` variant instead returns status `"error"` with the raw
exception text as the answer. -/
theorem answer_generation_fallback (st : RAGState) (e : Option (List ℝ))
    (msg q : String)
    (hd : st.documents ≠ [])
    (hr : search st e Config.TOP_K ≠ []) :
    SimpleRag.answer_question st e (Except.error msg) q =
      { question := q, answer := fallbackAnswer (search st e Config.TOP_K),
        sources := search st e Config.TOP_K, status := "fallback" } ∧
    fallbackAnswer (search st e Config.TOP_K) =
      "Based on the document, here\x27s what I found:\n\n" ++
        String.join ((((search st e Config.TOP_K).take 3).enum).map fun p =>
          "**Source " ++ toString (p.1 + 1) ++ "** (Relevance: " ++
            fmtPercent1 p.2.score ++ "):\n" ++ p.2.text.take 200 ++ "...\n\n") ∧
    RagSimple.answer_question st e (Except.error msg) q =
      { question := q, answer := "Error generating answer: " ++ msg,
        sources := search st e Config.TOP_K, status := "error" } := by
  have hd2 : st.documents.isEmpty = false := by
    rw [List.isEmpty_eq_false]
    exact hd
  have hr2 : (search st e Config.TOP_K).isEmpty = false := by
    rw [List.isEmpty_eq_false]
    exact hr
  refine ⟨?_, rfl, ?_⟩
  · unfold SimpleRag.answer_question
    simp only [hd2, hr2, Bool.false_eq_true, if_false]
  · unfold RagSimple.answer_question
    simp only [hr2, Bool.false_eq_true, if_false]

/-- Witness for `answer_generation_fallback` on the example corpus. -/
theorem answer_generation_fallback_witness :
    SimpleRag.answer_question exampleState (some [1, 0, 0])
        (Except.error "boom") "q" =
      { question := "q",
        answer := fallbackAnswer (search exampleState (some [1, 0, 0]) Config.TOP_K),
        sources := search exampleState (some [1, 0, 0]) Config.TOP_K,
        status := "fallback" } ∧
    (RagSimple.answer_question exampleState (some [1, 0, 0])
        (Except.error "boom") "q").status = "error" := by
  obtain ⟨h1, _, h3⟩ := answer_generation_fallback exampleState (some [1, 0, 0])
    "boom" "q" (by decide) search_example_ne_nil
  exact ⟨h1, by rw [h3]⟩

/-! ## Claim C4: ingestion failure atomicity and missing validation -/

/-- C4 counterexample: `process_document` accepts an embedding list whose
length disagrees with the chunk list — there is no length or dimension
validation and no `CorpusInconsistency` failure; the call reports success
and stores the mismatched snapshot. -/
theorem C4_counterexample :
    (process_document initState "doc.pdf" true (some "Hello.")
        (some [[1], [2]])).2 = true ∧
    (process_document initState "doc.pdf" true (some "Hello.")
        (some [[1], [2]])).1.documents.length = 1 ∧
    (process_document initState "doc.pdf" true (some "Hello.")
        (some [[1], [2]])).1.embeddings.length = 2 :=
  ⟨rfl, rfl, rfl⟩

/-- C4 amended: `process_document` performs no validation of sequence
lengths or embedding dimensionality — whenever chunking succeeds and the
embedding call returns, the returned chunk and embedding lists are stored
as-is (a provider contract violation is silently accepted); however every
failed ingestion (missing file, failed extraction or empty chunk list,
embedding-call failure) leaves the previously stored documents, embeddings
and metadata observably unchanged. -/
theorem process_document_amended :
    (∀ (st : RAGState) (src : String) (fe : Bool) (text : Option String)
        (embs : Option (List (List ℝ))),
        (process_document st src fe text embs).2 = false →
        (process_document st src fe text embs).1 = st) ∧
    (∀ (st : RAGState) (src text : String) (embs : List (List ℝ)),
        (process_pdf text).2 = true →
        (process_document st src true (some text) (some embs)).2 = true ∧
        (process_document st src true (some text) (some embs)).1.documents =
          (process_pdf text).1 ∧
        (process_document st src true (some text) (some embs)).1.embeddings =
          embs) := by
  constructor
  · intro st src fe text embs h
    cases fe
    · rfl
    · cases text with
      | none => rfl
      | some t =>
        unfold process_document at h ⊢
        cases hpr : (process_pdf t).2
        · simp [hpr]
        · cases embs with
          | none => simp [hpr]
          | some es =>
            simp [hpr] at h
  · intro st src text embs h
    unfold process_document
    simp [h]

/-- Witness for `process_document_amended`: a missing file leaves the state
unchanged, and a mismatched embedding list for `"Hello."` is stored. -/
theorem process_document_amended_witness :
    (process_document exampleState "x" false none none).1 = exampleState ∧
    ((process_pdf "Hello.").2 = true ∧
      (process_document initState "doc.pdf" true (some "Hello.")
          (some [[1], [2]])).2 = true) := by
  obtain ⟨h1, h2⟩ := process_document_amended
  exact ⟨h1 exampleState "x" false none none rfl, rfl,
    (h2 initState "doc.pdf" "Hello." [[1], [2]] rfl).1⟩

/-! ## Claim C10: query-time failures are absorbed -/

/-- C10: a query-time embedding-provider failure makes `search` return the
empty list (never an exception); with documents loaded, `answer_question`
then reports status `"no_results"`, and its result is identical to the one
produced when a successful embedding genuinely yields an empty ranking; and
both methods leave the stored documents, embeddings and metadata unchanged
(they never assign the instance fields). -/
theorem query_failure_absorbed (st : RAGState) (q : List ℝ) (top_k : ℕ)
    (g : Except String String) (question : String)
    (hd : st.documents ≠ []) :
    search st none top_k = [] ∧
    (SimpleRag.answer_question st none g question).status = "no_results" ∧
    (search st (some q) Config.TOP_K = [] →
      SimpleRag.answer_question st (some q) g question =
        SimpleRag.answer_question st none g question) ∧
    (searchM st none top_k).2 = st ∧
    (answer_questionM st none g question).2 = st := by
  have hd2 : st.documents.isEmpty = false := by
    rw [List.isEmpty_eq_false]
    exact hd
  have hnores : SimpleRag.answer_question st none g question =
      { question := question, answer := noResultsAnswer, sources := [],
        status := "no_results" } := by
    unfold SimpleRag.answer_question
    rw [hd2, search_none st Config.TOP_K]
    rfl
  refine ⟨search_none st top_k, by rw [hnores], ?_, rfl, rfl⟩
  intro hq
  rw [hnores]
  unfold SimpleRag.answer_question
  rw [hd2, hq]
  rfl

/-- Witness for `query_failure_absorbed` on the example corpus. -/
theorem query_failure_absorbed_witness :
    search exampleState none 3 = [] ∧
    (SimpleRag.answer_question exampleState none (Except.ok "hi") "q").status =
      "no_results" := by
  obtain ⟨h1, h2, _, _, _⟩ :=
    query_failure_absorbed exampleState [1, 0, 0] 3 (Except.ok "hi") "q" (by decide)
  exact ⟨h1, h2⟩

end RagQA
